import Mathlib

/-
Verification development for the stepwise factor-selection engine of
linear_regression.py (Financial-Multi-Factor-Model).

The embedding models pandas tables as lists, series cells as optional
rationals (an absent cell stands for NaN or a nonfinite value), and the
numeric fitting backends (statsmodels OLS fit, fit_regularized) as abstract
function parameters, so that every control-flow and data-flow decision of the
source is represented exactly while the floating-point solver itself stays
opaque.
-/

namespace FinFactor

/-- Truncation toward zero of a rational number, as CPython's int() conversion
applied to the product ratio * len(df). -/
def pyInt (x : ℚ) : ℤ := if 0 ≤ x then ⌊x⌋ else ⌈x⌉

/-- Python slicing l[:k] with a possibly negative bound, as pandas iloc[:k]. -/
def pySliceTo {α : Type} (l : List α) (k : ℤ) : List α :=
  if 0 ≤ k then l.take k.toNat else l.take (l.length - (-k).toNat)

/-- Python slicing l[k:] with a possibly negative bound, as pandas iloc[k:]. -/
def pySliceFrom {α : Type} (l : List α) (k : ℤ) : List α :=
  if 0 ≤ k then l.drop k.toNat else l.drop (l.length - (-k).toNat)

/-- split_data from linear_regression.py:
df.iloc[:int(ratio*len(df))], df.iloc[int(ratio*len(df)):]. -/
def split_data {α : Type} (l : List α) (ratio : ℚ) : List α × List α :=
  (pySliceTo l (pyInt (ratio * l.length)), pySliceFrom l (pyInt (ratio * l.length)))

/-- A series cell: some v for a finite value, none for an absent cell (NaN or a
nonfinite value, which pandas dropna and skipna-sums treat alike). -/
abbrev Cell := Option ℚ

/-- pandas shift(-1): every value moves one position earlier and the last cell
becomes NaN; the empty series stays empty. -/
def shiftUp : List Cell → List Cell
  | [] => []
  | _ :: t => t ++ [none]

/-- pandas shift(1): every value moves one position later and the first cell
becomes NaN; the empty series stays empty. -/
def shiftDown : List Cell → List Cell
  | [] => []
  | l => none :: l.dropLast

/-- Elementwise offset_close / close - 1 with pandas NaN propagation; division
by a zero price yields a nonfinite value, modelled as an absent cell. -/
def retCell : Cell → Cell → Cell
  | some a, some b => if b = 0 then none else some (a / b - 1)
  | _, _ => none

/-- pandas dropna on a series: keep exactly the present values, in order. -/
def dropna (l : List Cell) : List ℚ := l.filterMap id

/-- get_returns from linear_regression.py:
(close_prices.shift(-1) / close_prices - 1).shift(1).dropna(). -/
def get_returns (close_prices : List Cell) : List ℚ :=
  dropna (shiftDown (List.zipWith retCell (shiftUp close_prices) close_prices))

/-- Dates index the rows of every series and table. -/
abbrev Date := ℕ

/-- A data frame of factor columns: the column names, and rows holding a date
together with the cell values aligned with the names. -/
structure Table where
  names : List String
  rows : List (Date × List ℚ)
deriving DecidableEq

/-- An abstract fitted model is identified with its prediction function on one
row of factor values, as model.predict acts row by row. -/
abbrev Model := List ℚ → ℚ

/-- One row of the prediction_and_actual frame built by test_model: the date,
the Prediction column, the joined actual return (absent when the left join
finds no matching date), and the squared_error column. -/
structure JoinedRow where
  date : Date
  prediction : ℚ
  actual : Cell
  squaredError : Cell
deriving DecidableEq

/-- model.predict over the test factor table: one prediction per row, indexed
by the table's dates. -/
def predictSeries (m : Model) (t : Table) : List (Date × ℚ) :=
  t.rows.map (fun r => (r.1, m r.2))

/-- test_model from linear_regression.py: predict on the test factor table,
left-join the actual stock series on the prediction's date index, square the
residual per row, and divide the skipna sum of squared errors by the number of
predictions. -/
def test_model (m : Model) (factor_test : Table) (stock_test : List (Date × ℚ)) :
    List JoinedRow × ℚ :=
  let pred := predictSeries m factor_test
  let joined := pred.map (fun p =>
    let a := List.lookup p.1 stock_test
    { date := p.1, prediction := p.2, actual := a,
      squaredError := a.map (fun av => (av - p.2) ^ 2) })
  (joined, (joined.map (fun j => j.squaredError.getD 0)).sum / (pred.length : ℚ))

/-- The data defining an sm.OLS model object: the endogenous training series
and the exogenous training design matrix. -/
structure OLSSpec where
  endog : List (Date × ℚ)
  exog : Table

/-- An abstract numeric backend for model.fit_regularized(method, alpha,
L1_wt): from the OLS model data and the three arguments to a fitted model. -/
abbrev RegSolver := OLSSpec → String → ℚ → ℚ → Model

/-- test_regularized_model from linear_regression.py: refit the model with
fit_regularized(method='elastic_net', alpha=test_alpha, L1_wt=0), then
evaluate the refit with test_model on the same test data. -/
def test_regularized_model (fitReg : RegSolver) (model : OLSSpec) (test_alpha : ℚ)
    (stock_test : List (Date × ℚ)) (factor_test : Table) : List JoinedRow × ℚ :=
  test_model (fitReg model "elastic_net" test_alpha 0) factor_test stock_test

/-- Keep the values of the columns whose name is listed in keep, preserving
the original column order. -/
def selectCols : List String → List String → List ℚ → List ℚ
  | [], _, _ => []
  | _ :: _, _, [] => []
  | n :: ns, keep, v :: vs =>
      if n ∈ keep then v :: selectCols ns keep vs else selectCols ns keep vs

/-- factor_test_df.drop(to_remove, axis=1) where to_remove collects every
column of the table that is not among the surviving columns. -/
def pruneTable (t : Table) (keep : List String) : Table :=
  { names := t.names.filter (fun n => decide (n ∈ keep)),
    rows := t.rows.map (fun r => (r.1, selectCols t.names keep r.2)) }

/-- The evaluation block of the accepted branch of regress_factors: prune the
test factor table to the surviving training columns, evaluate the accepted
plain OLS fit with test_model, and evaluate the regularized refit of the same
OLS model object at alpha 0.01 on the same pruned table. olsFit abstracts
model.fit(). -/
def acceptedBranch (olsFit : OLSSpec → Model) (fitReg : RegSolver) (model : OLSSpec)
    (factor_test_df : Table) (tempCols : List String) (stock_test : List (Date × ℚ)) :
    (List JoinedRow × ℚ) × (List JoinedRow × ℚ) :=
  let factor_test_temp := pruneTable factor_test_df tempCols
  let results := olsFit model
  (test_model results factor_test_temp stock_test,
   test_regularized_model fitReg model (1 / 100) stock_test factor_test_temp)

/-- The fields of a statsmodels fit result inspected by the selector: the
p-value series as (name, value) pairs in design-column order, and the adjusted
R squared. -/
structure FitResult where
  pvalues : List (String × ℚ)
  rsquared_adj : ℚ
deriving DecidableEq

/-- An abstract OLS fitting backend for one stock's training series: from the
current candidate factor columns to the fields of sm.OLS(...).fit() that the
loop reads. The training rows are fixed per stock, so they are absorbed into
the oracle. -/
abbrev FitOracle := List String → FitResult

/-- The inner for-loop of regress_factors over the fit's p-values: a factor
whose p-value exceeds signif_level, other than const, is dropped from the
candidate columns and all_pvals_under becomes false; the scan then continues
over the remaining p-value entries. -/
def elimOnce (signif : ℚ) : List (String × ℚ) → List String → Bool → List String × Bool
  | [], cols, allU => (cols, allU)
  | (f, p) :: rest, cols, allU =>
      if signif < p ∧ f ≠ "const" then
        elimOnce signif rest (cols.filter (fun c => decide (c ≠ f))) false
      else elimOnce signif rest cols allU

/-- The observable outcome of the while-loop of regress_factors for one stock:
the final candidate columns, whether the acceptance branch ran, the value of
the loop variable factor after the last p-value scan (the name recorded into
the portfolio), the number of iterations executed, and the (pvalues,
rsquared_adj) trace of every fit performed. -/
structure StepOutcome where
  finalCols : List String
  accepted : Bool
  staleKey : String
  iters : ℕ
  trace : List (List (String × ℚ) × ℚ)
deriving DecidableEq

/-- The while-loop of regress_factors for one stock, with explicit fuel: while
not pvals_under_sig and the candidate columns are nonempty, fit, scan the
p-values dropping insignificant non-constant factors, and run the acceptance
branch when the fit converged with adjusted R squared at or above the
threshold. -/
def loopAux (signif r2th : ℚ) (fit : FitOracle) : ℕ → List String → Option StepOutcome
  | 0, _ => none
  | fuel + 1, cols =>
      if cols.isEmpty then some ⟨cols, false, "", 0, []⟩
      else
        if (elimOnce signif (fit cols).pvalues cols true).2 then
          some ⟨(elimOnce signif (fit cols).pvalues cols true).1,
                decide (r2th ≤ (fit cols).rsquared_adj),
                ((fit cols).pvalues.map Prod.fst).getLastD "", 1,
                [((fit cols).pvalues, (fit cols).rsquared_adj)]⟩
        else
          match loopAux signif r2th fit fuel (elimOnce signif (fit cols).pvalues cols true).1 with
          | none => none
          | some o =>
              some ⟨o.finalCols, o.accepted, o.staleKey, o.iters + 1,
                    ((fit cols).pvalues, (fit cols).rsquared_adj) :: o.trace⟩

/-- A pandas column key of the stocks table: either a plain scalar label or a
two-level MultiIndex tuple key. -/
inductive PyKey where
  | scalar (s : String)
  | tup (a b : String)
deriving DecidableEq

/-- The identifier computed by the loop body:
ticker = stock[1] if isinstance(stock, tuple) else stock. -/
def tickerOf : PyKey → String
  | .scalar s => s
  | .tup _ b => b

/-- The portfolio update of the acceptance branch:
portfolios[str(factor)] = set([ticker]) when the key is absent, otherwise
portfolios[str(factor)].add(ticker); a dict modelled as an insertion-ordered
association list with duplicate-free member lists. -/
def addToPortfolio : List (String × List String) → String → String → List (String × List String)
  | [], f, t => [(f, [t])]
  | (g, ts) :: rest, f, t =>
      if g = f then (g, if t ∈ ts then ts else ts ++ [t]) :: rest
      else (g, ts) :: addToPortfolio rest f t

/-- The per-stock body of regress_factors restricted to its effect on the
portfolio mapping: run the stepwise loop on the training factor columns and,
exactly when the acceptance branch ran, record the stale loop variable factor
against this stock's ticker. The numeric evaluation calls of the acceptance
branch do not touch the portfolio and are modelled by acceptedBranch. -/
def processStock (signif r2th : ℚ) (cols0 : List String)
    (port : List (String × List String)) (stock : PyKey × FitOracle) :
    List (String × List String) :=
  match loopAux signif r2th stock.2 (cols0.length + 1) cols0 with
  | none => port
  | some o => if o.accepted then addToPortfolio port o.staleKey (tickerOf stock.1) else port

/-- regress_factors from linear_regression.py, restricted to the portfolio
mapping it returns: sm.add_constant prepends the const column to the factor
table, then each stock of the stocks table is processed in order against the
shared candidate columns, accumulating the portfolios dict. -/
def regress_factors (signif r2th : ℚ) (factorNames : List String)
    (stocks : List (PyKey × FitOracle)) : List (String × List String) :=
  stocks.foldl (processStock signif r2th ("const" :: factorNames)) []

/-- A concrete oracle on which every fit is significant and strong: every
p-value is 0 and the adjusted R squared is 1. -/
def sigOracle : FitOracle := fun cols => ⟨cols.map (fun c => (c, 0)), 1⟩

/-- A concrete oracle on which every fit is insignificant and weak: every
p-value is 1 and the adjusted R squared is 0. -/
def noisyOracle : FitOracle := fun cols => ⟨cols.map (fun c => (c, 1)), 0⟩

lemma sigOracle_names : ∀ cols, ((sigOracle cols).pvalues.map Prod.fst) = cols := by
  intro cols
  induction cols with
  | nil => rfl
  | cons a t ih => simp_all [sigOracle]

lemma noisyOracle_names : ∀ cols, ((noisyOracle cols).pvalues.map Prod.fst) = cols := by
  intro cols
  induction cols with
  | nil => rfl
  | cons a t ih => simp_all [noisyOracle]

lemma elim_sublist (signif : ℚ) :
    ∀ (pv : List (String × ℚ)) (cols : List String) (b : Bool),
      (elimOnce signif pv cols b).1.Sublist cols := by
  intro pv
  induction pv with
  | nil => intro cols b; exact List.Sublist.refl cols
  | cons q rest ih =>
      intro cols b
      obtain ⟨f, p⟩ := q
      simp only [elimOnce]
      split
      · exact (ih _ _).trans (List.filter_sublist cols)
      · exact ih _ _

lemma elim_const (signif : ℚ) :
    ∀ (pv : List (String × ℚ)) (cols : List String) (b : Bool),
      "const" ∈ cols → "const" ∈ (elimOnce signif pv cols b).1 := by
  intro pv
  induction pv with
  | nil => intro cols b h; exact h
  | cons q rest ih =>
      intro cols b h
      obtain ⟨f, p⟩ := q
      simp only [elimOnce]
      split
      · rename_i hc
        exact ih _ _ (List.mem_filter.mpr
          ⟨h, by simp only [decide_eq_true_eq]; exact fun e => hc.2 e.symm⟩)
      · exact ih _ _ h

lemma elim_flag_false (signif : ℚ) :
    ∀ (pv : List (String × ℚ)) (cols : List String),
      (elimOnce signif pv cols false).2 = false := by
  intro pv
  induction pv with
  | nil => intro cols; rfl
  | cons q rest ih =>
      intro cols
      obtain ⟨f, p⟩ := q
      simp only [elimOnce]
      split
      · exact ih _
      · exact ih _

lemma elim_flag_true_iff (signif : ℚ) :
    ∀ (pv : List (String × ℚ)) (cols : List String),
      ((elimOnce signif pv cols true).2 = true) ↔
        (∀ q ∈ pv, q.1 ≠ "const" → q.2 ≤ signif) := by
  intro pv
  induction pv with
  | nil => intro cols; simp [elimOnce]
  | cons q rest ih =>
      intro cols
      obtain ⟨f, p⟩ := q
      simp only [elimOnce]
      split
      · rename_i hc
        rw [elim_flag_false]
        constructor
        · intro h; exact absurd h (by simp)
        · intro h
          exact absurd (h (f, p) (List.mem_cons_self _ _) hc.2) (not_le.mpr hc.1)
      · rename_i hc
        rw [ih]
        constructor
        · intro h q hq hne
          rcases List.mem_cons.mp hq with rfl | hq2
          · by_contra hgt
            exact hc ⟨not_le.mp hgt, hne⟩
          · exact h q hq2 hne
        · intro h q hq hne
          exact h q (List.mem_cons_of_mem _ hq) hne

lemma elim_id_of_true (signif : ℚ) :
    ∀ (pv : List (String × ℚ)) (cols : List String),
      (elimOnce signif pv cols true).2 = true → (elimOnce signif pv cols true).1 = cols := by
  intro pv
  induction pv with
  | nil => intro cols _; rfl
  | cons q rest ih =>
      intro cols h
      obtain ⟨f, p⟩ := q
      simp only [elimOnce] at h ⊢
      split at h
      · rw [elim_flag_false] at h; exact absurd h (by simp)
      · rename_i hc
        rw [if_neg hc]
        exact ih _ h

lemma filter_ne_length_lt (f : String) (cols : List String) (hf : f ∈ cols) :
    (cols.filter (fun c => decide (c ≠ f))).length < cols.length := by
  induction cols with
  | nil => simp at hf
  | cons a t ih =>
      rw [List.filter_cons]
      by_cases ha : a = f
      · rw [if_neg (by simp [ha])]
        exact Nat.lt_succ_of_le (List.length_filter_le _ t)
      · have hft : f ∈ t := by
          rcases List.mem_cons.mp hf with h1 | h2
          · exact absurd h1.symm ha
          · exact h2
        rw [if_pos (by simp [ha])]
        simpa using ih hft

lemma elim_shrink (signif : ℚ) :
    ∀ (pv : List (String × ℚ)) (cols : List String),
      (∀ q ∈ pv, q.1 ∈ cols) → (elimOnce signif pv cols true).2 = false →
      (elimOnce signif pv cols true).1.length < cols.length := by
  intro pv
  induction pv with
  | nil => intro cols _ h; simp [elimOnce] at h
  | cons q rest ih =>
      intro cols hmem h
      obtain ⟨f, p⟩ := q
      simp only [elimOnce] at h ⊢
      split at h
      · rename_i hc
        rw [if_pos hc]
        have hlt : (cols.filter (fun c => decide (c ≠ f))).length < cols.length :=
          filter_ne_length_lt f cols (hmem (f, p) (List.mem_cons_self _ _))
        exact lt_of_le_of_lt (elim_sublist signif rest _ false).length_le hlt
      · rename_i hc
        rw [if_neg hc]
        exact ih cols (fun q hq => hmem q (List.mem_cons_of_mem _ hq)) h

lemma loopAux_total (signif r2th : ℚ) (fit : FitOracle)
    (hfit : ∀ cols, ((fit cols).pvalues.map Prod.fst) = cols) :
    ∀ (fuel : ℕ) (cols : List String), cols.length < fuel →
      ∃ o, loopAux signif r2th fit fuel cols = some o ∧ o.iters ≤ cols.length ∧
        o.finalCols.Sublist cols ∧ ("const" ∈ cols → "const" ∈ o.finalCols) := by
  intro fuel
  induction fuel with
  | zero => intro cols h; exact absurd h (Nat.not_lt_zero _)
  | succ fuel ih =>
      intro cols hlen
      by_cases hemp : cols.isEmpty = true
      · refine ⟨⟨cols, false, "", 0, []⟩, ?_, ?_, List.Sublist.refl _, fun h => h⟩
        · simp [loopAux, hemp]
        · exact Nat.zero_le _
      · by_cases hall : (elimOnce signif (fit cols).pvalues cols true).2 = true
        · refine ⟨⟨(elimOnce signif (fit cols).pvalues cols true).1,
                  decide (r2th ≤ (fit cols).rsquared_adj),
                  ((fit cols).pvalues.map Prod.fst).getLastD "", 1,
                  [((fit cols).pvalues, (fit cols).rsquared_adj)]⟩, ?_, ?_, ?_, ?_⟩
          · simp [loopAux, hemp, hall]
          · exact List.length_pos.mpr (fun e => hemp (by simp [e]))
          · exact elim_sublist signif _ cols true
          · exact fun h => elim_const signif _ cols true h
        · have hmem : ∀ q ∈ (fit cols).pvalues, q.1 ∈ cols := by
            intro q hq
            rw [← hfit cols]
            exact List.mem_map_of_mem _ hq
          have hshrink : (elimOnce signif (fit cols).pvalues cols true).1.length < cols.length :=
            elim_shrink signif _ cols hmem (by simpa using hall)
          have hfuel2 : (elimOnce signif (fit cols).pvalues cols true).1.length < fuel := by
            omega
          obtain ⟨o, ho, hi, hs, hc⟩ := ih _ hfuel2
          refine ⟨⟨o.finalCols, o.accepted, o.staleKey, o.iters + 1,
                  ((fit cols).pvalues, (fit cols).rsquared_adj) :: o.trace⟩, ?_, ?_, ?_, ?_⟩
          · simp [loopAux, hemp, hall, ho]
          · show o.iters + 1 ≤ cols.length
            omega
          · exact hs.trans (elim_sublist signif _ cols true)
          · exact fun h => hc (elim_const signif _ cols true h)

lemma loopAux_accept_iff (signif r2th : ℚ) (fit : FitOracle) :
    ∀ (fuel : ℕ) (cols : List String) (o : StepOutcome),
      loopAux signif r2th fit fuel cols = some o →
      (o.accepted = true ↔ ∃ e ∈ o.trace,
        (∀ q ∈ e.1, q.1 ≠ "const" → q.2 ≤ signif) ∧ r2th ≤ e.2) := by
  intro fuel
  induction fuel with
  | zero => intro cols o h; simp [loopAux] at h
  | succ fuel ih =>
      intro cols o h
      by_cases hemp : cols.isEmpty = true
      · rw [loopAux, if_pos hemp] at h
        obtain rfl := (Option.some.injEq _ _).mp h.symm
        simp
      · by_cases hall : (elimOnce signif (fit cols).pvalues cols true).2 = true
        · rw [loopAux, if_neg hemp, if_pos hall] at h
          obtain rfl := (Option.some.injEq _ _).mp h.symm
          have hP := (elim_flag_true_iff signif (fit cols).pvalues cols).mp hall
          show decide (r2th ≤ (fit cols).rsquared_adj) = true ↔ _
          rw [decide_eq_true_eq]
          constructor
          · intro hacc
            exact ⟨((fit cols).pvalues, (fit cols).rsquared_adj),
              List.mem_singleton.mpr rfl, hP, hacc⟩
          · rintro ⟨e, he, hPe, hr2⟩
            rw [List.mem_singleton] at he
            subst he
            exact hr2
        · rw [loopAux, if_neg hemp, if_neg hall] at h
          cases hrec : loopAux signif r2th fit fuel (elimOnce signif (fit cols).pvalues cols true).1 with
          | none => rw [hrec] at h; exact absurd h (by simp)
          | some o2 =>
              rw [hrec] at h
              obtain rfl := (Option.some.injEq _ _).mp h.symm
              have hnot : ¬ ∀ q ∈ (fit cols).pvalues, q.1 ≠ "const" → q.2 ≤ signif :=
                fun hP => hall ((elim_flag_true_iff signif (fit cols).pvalues cols).mpr hP)
              rw [show (⟨o2.finalCols, o2.accepted, o2.staleKey, o2.iters + 1,
                    ((fit cols).pvalues, (fit cols).rsquared_adj) :: o2.trace⟩ : StepOutcome).accepted
                  = o2.accepted from rfl]
              rw [ih _ o2 hrec]
              constructor
              · rintro ⟨e, he, hP⟩
                exact ⟨e, List.mem_cons_of_mem _ he, hP⟩
              · rintro ⟨e, he, hP⟩
                rcases List.mem_cons.mp he with rfl | he2
                · exact absurd hP.1 hnot
                · exact ⟨e, he2, hP⟩

lemma loopAux_const (signif r2th : ℚ) (fit : FitOracle) :
    ∀ (fuel : ℕ) (cols : List String) (o : StepOutcome),
      "const" ∈ cols → loopAux signif r2th fit fuel cols = some o →
      "const" ∈ o.finalCols := by
  intro fuel
  induction fuel with
  | zero => intro cols o _ h; simp [loopAux] at h
  | succ fuel ih =>
      intro cols o hconst h
      by_cases hemp : cols.isEmpty = true
      · rw [loopAux, if_pos hemp] at h
        obtain rfl := (Option.some.injEq _ _).mp h.symm
        exact hconst
      · by_cases hall : (elimOnce signif (fit cols).pvalues cols true).2 = true
        · rw [loopAux, if_neg hemp, if_pos hall] at h
          obtain rfl := (Option.some.injEq _ _).mp h.symm
          exact elim_const signif _ cols true hconst
        · rw [loopAux, if_neg hemp, if_neg hall] at h
          cases hrec : loopAux signif r2th fit fuel (elimOnce signif (fit cols).pvalues cols true).1 with
          | none => rw [hrec] at h; exact absurd h (by simp)
          | some o2 =>
              rw [hrec] at h
              obtain rfl := (Option.some.injEq _ _).mp h.symm
              exact ih _ o2 (elim_const signif _ cols true hconst) hrec

lemma split_data_of_one_le {α : Type} (l : List α) (ratio : ℚ) (h : 1 ≤ ratio) :
    split_data l ratio = (l, []) := by
  have hx : ((l.length : ℚ)) ≤ ratio * (l.length : ℚ) := by
    calc (l.length : ℚ) = 1 * (l.length : ℚ) := (one_mul _).symm
    _ ≤ ratio * (l.length : ℚ) := mul_le_mul_of_nonneg_right h (Nat.cast_nonneg _)
  have hx0 : (0 : ℚ) ≤ ratio * (l.length : ℚ) := le_trans (Nat.cast_nonneg _) hx
  have hk0 : (0 : ℤ) ≤ ⌊ratio * (l.length : ℚ)⌋ := Int.floor_nonneg.mpr hx0
  have hkn : l.length ≤ (⌊ratio * (l.length : ℚ)⌋).toNat := by
    have hfl : (l.length : ℤ) ≤ ⌊ratio * (l.length : ℚ)⌋ := Int.le_floor.mpr (by push_cast; exact hx)
    omega
  simp only [split_data, pySliceTo, pySliceFrom, pyInt, if_pos hx0, if_pos hk0]
  rw [List.take_of_length_le hkn, List.drop_eq_nil_of_le hkn]

/-- C4: for every table and every split ratio strictly between 0 and 1,
split_data returns a training slice whose length is the floor of ratio times
the table length, a test slice holding the remaining rows, and concatenating
the two slices reproduces the table row for row. -/
theorem c4_split_completeness {α : Type} (l : List α) (ratio : ℚ)
    (h1 : 0 < ratio) (h2 : ratio < 1) :
    (((split_data l ratio).1.length : ℤ) = ⌊ratio * (l.length : ℚ)⌋) ∧
    (split_data l ratio).2.length = l.length - (split_data l ratio).1.length ∧
    (split_data l ratio).1 ++ (split_data l ratio).2 = l := by
  have hx0 : (0 : ℚ) ≤ ratio * (l.length : ℚ) := mul_nonneg h1.le (Nat.cast_nonneg _)
  have hk0 : (0 : ℤ) ≤ ⌊ratio * (l.length : ℚ)⌋ := Int.floor_nonneg.mpr hx0
  have hkn : (⌊ratio * (l.length : ℚ)⌋).toNat ≤ l.length := by
    rcases Nat.eq_zero_or_pos l.length with h0 | hpos
    · rw [h0]
      have hz : ratio * ((0 : ℕ) : ℚ) = 0 := by push_cast; ring
      rw [hz, Int.floor_zero]
      simp
    · have hlt : ratio * (l.length : ℚ) < (l.length : ℚ) := by
        calc ratio * (l.length : ℚ) < 1 * (l.length : ℚ) :=
              mul_lt_mul_of_pos_right h2 (by exact_mod_cast hpos)
        _ = (l.length : ℚ) := one_mul _
      have hfl : ⌊ratio * (l.length : ℚ)⌋ < (l.length : ℤ) := Int.floor_lt.mpr (by push_cast; exact hlt)
      omega
  simp only [split_data, pySliceTo, pySliceFrom, pyInt, if_pos hx0, if_pos hk0]
  refine ⟨?_, ?_, List.take_append_drop _ _⟩
  · rw [List.length_take, min_eq_left hkn]
    exact Int.toNat_of_nonneg hk0
  · rw [List.length_drop, List.length_take, min_eq_left hkn]

/-- C4 witness: the theorem applied to a three-row table and the ratio one
half, whose hypotheses hold by computation. -/
theorem c4_split_completeness_witness :
    (0 : ℚ) < Rat.mk' 1 2 (by decide) (Nat.coprime_one_left 2) ∧
    Rat.mk' 1 2 (by decide) (Nat.coprime_one_left 2) < 1 ∧
    ((((split_data [10, 20, 30] (Rat.mk' 1 2 (by decide) (Nat.coprime_one_left 2))).1.length : ℤ)
        = ⌊Rat.mk' 1 2 (by decide) (Nat.coprime_one_left 2) * (([10, 20, 30] : List ℕ).length : ℚ)⌋) ∧
      (split_data [10, 20, 30] (Rat.mk' 1 2 (by decide) (Nat.coprime_one_left 2))).2.length
        = ([10, 20, 30] : List ℕ).length
          - (split_data [10, 20, 30] (Rat.mk' 1 2 (by decide) (Nat.coprime_one_left 2))).1.length ∧
      (split_data [10, 20, 30] (Rat.mk' 1 2 (by decide) (Nat.coprime_one_left 2))).1
        ++ (split_data [10, 20, 30] (Rat.mk' 1 2 (by decide) (Nat.coprime_one_left 2))).2
        = [10, 20, 30]) :=
  ⟨by decide, by decide,
   c4_split_completeness [10, 20, 30] (Rat.mk' 1 2 (by decide) (Nat.coprime_one_left 2))
     (by decide) (by decide)⟩

/-- C8 counterexample: a run with split_ratio = 2, outside (0,1), does not
abort; split_data proceeds and returns the whole table as the training slice
with an empty test slice, the degenerate split the claim says is prevented. -/
theorem c8_no_validation_counterexample :
    split_data [(10 : ℕ), 20] 2 = ([10, 20], []) :=
  split_data_of_one_le [10, 20] 2 (by decide)

/-- C8 amended: the code performs no configuration validation at run start;
for any ratio at or above 1 split_data proceeds and returns the whole table
as the training slice with an empty test slice, and a negative
regularization alpha is passed unchecked into the elastic-net refit, whose
evaluation proceeds identically to the plain one. -/
theorem c8_no_validation_amended {α : Type} (l : List α) (ratio alpha : ℚ)
    (fitReg : RegSolver) (model : OLSSpec) (st : List (Date × ℚ)) (ft : Table)
    (h1 : 1 ≤ ratio) (_h2 : alpha < 0) :
    split_data l ratio = (l, []) ∧
    test_regularized_model fitReg model alpha st ft
      = test_model (fitReg model "elastic_net" alpha 0) ft st :=
  ⟨split_data_of_one_le l ratio h1, rfl⟩

/-- C8 amended witness: the amended theorem applied at ratio 2 and alpha -1
with a concrete table and a trivial solver. -/
theorem c8_no_validation_amended_witness :
    (1 : ℚ) ≤ 2 ∧ (-1 : ℚ) < 0 ∧
    (split_data [(10 : ℕ), 20, 30] 2 = ([10, 20, 30], []) ∧
      test_regularized_model (fun _ _ _ _ => fun _ => 0) ⟨[], ⟨[], []⟩⟩ (-1) [] ⟨[], []⟩
        = test_model ((fun (_ : OLSSpec) (_ : String) (_ : ℚ) (_ : ℚ) => fun (_ : List ℚ) => (0 : ℚ))
            ⟨[], ⟨[], []⟩⟩ "elastic_net" (-1) 0) ⟨[], []⟩ []) :=
  ⟨by decide, by decide,
   c8_no_validation_amended [(10 : ℕ), 20, 30] 2 (-1) (fun _ _ _ _ => fun _ => 0)
     ⟨[], ⟨[], []⟩⟩ [] ⟨[], []⟩ (by decide) (by decide)⟩

/-- C9: applying the return transform to a series of length 0 or 1 yields the
empty series; the function is total, so no exception can arise. -/
theorem c9_returns_empty (l : List Cell) (h : l.length ≤ 1) : get_returns l = [] := by
  rcases l with _ | ⟨a, _ | ⟨b, t⟩⟩
  · rfl
  · cases a <;> rfl
  · simp at h

/-- C9 witness: the theorem applied to a one-element price series. -/
theorem c9_returns_empty_witness :
    ([some (5 : ℚ)] : List Cell).length ≤ 1 ∧ get_returns [some (5 : ℚ)] = [] :=
  ⟨by decide, c9_returns_empty [some (5 : ℚ)] (by decide)⟩

/-- C6: test_model joins the actual series to the prediction by a left join on
the prediction's date index, so the joined table has exactly one row per
prediction row with the prediction's dates, each row's actual is the lookup of
its date in the test series, and the mse is the sum of the per-row squared
errors divided by the number of test factor rows. -/
theorem c6_test_model_join_mse (m : Model) (ft : Table) (st : List (Date × ℚ)) :
    (test_model m ft st).1.length = ft.rows.length ∧
    (test_model m ft st).1.map JoinedRow.date = ft.rows.map Prod.fst ∧
    (∀ j ∈ (test_model m ft st).1, j.actual = List.lookup j.date st ∧
        j.squaredError = Option.map (fun av => (av - j.prediction) ^ 2) j.actual) ∧
    (test_model m ft st).2
      = ((test_model m ft st).1.map (fun j => Option.getD j.squaredError 0)).sum
          / (ft.rows.length : ℚ) := by
  refine ⟨?_, ?_, ?_, ?_⟩
  · simp [test_model, predictSeries]
  · simp [test_model, predictSeries, List.map_map]
  · intro j hj
    simp only [test_model, predictSeries, List.map_map, List.mem_map] at hj
    obtain ⟨r, _, rfl⟩ := hj
    exact ⟨rfl, rfl⟩
  · simp [test_model, predictSeries]

/-- C7: the accepted branch evaluates the plain fit and the regularized refit
of the same OLS model data through the identical test_model path on the same
pruned test factor table, the refit using the elastic-net method with alpha
0.01 and its L1 weight fixed at 0. -/
theorem c7_regularized_same_path (olsFit : OLSSpec → Model) (fitReg : RegSolver)
    (model : OLSSpec) (ftd : Table) (tempCols : List String) (st : List (Date × ℚ)) :
    acceptedBranch olsFit fitReg model ftd tempCols st
      = (test_model (olsFit model) (pruneTable ftd tempCols) st,
         test_model (fitReg model "elastic_net" (1 / 100) 0) (pruneTable ftd tempCols) st) :=
  rfl

/-- C10: the identifier recorded for a stock is the component at index 1 of a
tuple column key and the key itself otherwise, so processing two stocks whose
tuple keys differ only in their first component updates the portfolio
identically. -/
theorem c10_ticker_identifier :
    (∀ s, tickerOf (PyKey.scalar s) = s) ∧
    (∀ a b, tickerOf (PyKey.tup a b) = b) ∧
    (∀ (signif r2th : ℚ) (cols0 : List String) (port : List (String × List String))
        (a a2 b : String) (orc : FitOracle),
      processStock signif r2th cols0 port (PyKey.tup a b, orc)
        = processStock signif r2th cols0 port (PyKey.tup a2 b, orc)) := by
  refine ⟨fun s => rfl, fun a b => rfl, ?_⟩
  intro signif r2th cols0 port a a2 b orc
  rfl

/-- C2: for a stock processed by the stepwise selector, the loop terminates
with an outcome whose acceptance flag is true exactly when some iteration's
fit had every non-constant p-value at or below signif_level together with an
adjusted R squared at or above r2_threshold, and the per-stock step adds a
portfolio entry exactly when that flag is set, leaving the portfolio untouched
otherwise. -/
theorem c2_acceptance_gate (signif r2th : ℚ) (k : PyKey) (fit : FitOracle)
    (factorNames : List String) (port : List (String × List String))
    (hfit : ∀ cols, ((fit cols).pvalues.map Prod.fst) = cols) :
    ∃ o, loopAux signif r2th fit (("const" :: factorNames).length + 1)
        ("const" :: factorNames) = some o ∧
      (o.accepted = true ↔ ∃ e ∈ o.trace,
        (∀ q ∈ e.1, q.1 ≠ "const" → q.2 ≤ signif) ∧ r2th ≤ e.2) ∧
      processStock signif r2th ("const" :: factorNames) port (k, fit)
        = if o.accepted then addToPortfolio port o.staleKey (tickerOf k) else port := by
  obtain ⟨o, ho, _, _, _⟩ :=
    loopAux_total signif r2th fit hfit (("const" :: factorNames).length + 1)
      ("const" :: factorNames) (by simp)
  refine ⟨o, ho, loopAux_accept_iff signif r2th fit _ _ o ho, ?_⟩
  have ho2 : loopAux signif r2th fit (factorNames.length + 1 + 1) ("const" :: factorNames)
      = some o := by simpa using ho
  simp [processStock, ho2]

/-- C2 witness: the theorem applied to the all-significant oracle on one
factor, whose fit oracle names its p-values after the design columns. -/
theorem c2_acceptance_gate_witness :
    ∃ o, loopAux 0 0 sigOracle ((["const", "f1"] : List String).length + 1)
        ["const", "f1"] = some o ∧
      (o.accepted = true ↔ ∃ e ∈ o.trace,
        (∀ q ∈ e.1, q.1 ≠ "const" → q.2 ≤ (0 : ℚ)) ∧ (0 : ℚ) ≤ e.2) ∧
      processStock 0 0 ["const", "f1"] [] (PyKey.scalar "AAPL", sigOracle)
        = if o.accepted then addToPortfolio [] o.staleKey (tickerOf (PyKey.scalar "AAPL"))
          else [] :=
  c2_acceptance_gate 0 0 (PyKey.scalar "AAPL") sigOracle ["f1"] [] sigOracle_names

/-- C3: for a nonempty factor set of size n, the stepwise loop terminates
within its fuel in at most n + 1 iterations, and its final candidate columns
are a sublist of the initial constant-plus-factors columns that still contains
the constant. -/
theorem c3_selector_termination (signif r2th : ℚ) (fit : FitOracle)
    (factorNames : List String)
    (hfit : ∀ cols, ((fit cols).pvalues.map Prod.fst) = cols)
    (_hne : factorNames ≠ []) :
    ∃ o, loopAux signif r2th fit (factorNames.length + 2) ("const" :: factorNames) = some o ∧
      o.iters ≤ factorNames.length + 1 ∧
      o.finalCols.Sublist ("const" :: factorNames) ∧
      "const" ∈ o.finalCols := by
  obtain ⟨o, ho, hi, hs, hc⟩ :=
    loopAux_total signif r2th fit hfit (factorNames.length + 2) ("const" :: factorNames) (by simp)
  exact ⟨o, ho, by simpa using hi, hs, hc (List.mem_cons_self _ _)⟩

/-- C3 witness: the theorem applied to the all-insignificant oracle on one
factor; the loop eliminates the factor, refits on the constant alone and
stops after two iterations. -/
theorem c3_selector_termination_witness :
    ∃ o, loopAux 0 1 noisyOracle ((["f1"] : List String).length + 2) ["const", "f1"] = some o ∧
      o.iters ≤ (["f1"] : List String).length + 1 ∧
      o.finalCols.Sublist ["const", "f1"] ∧
      "const" ∈ o.finalCols :=
  c3_selector_termination 0 1 noisyOracle ["f1"] noisyOracle_names (by decide)

/-- C5: the constant column is never removed by a p-value scan regardless of
its p-value, and it survives into the final candidate columns of any
terminating run of the stepwise loop that started with it. -/
theorem c5_const_never_removed (signif r2th : ℚ) (fit : FitOracle) :
    (∀ (pv : List (String × ℚ)) (cols : List String) (b : Bool),
      "const" ∈ cols → "const" ∈ (elimOnce signif pv cols b).1) ∧
    (∀ (fuel : ℕ) (cols : List String) (o : StepOutcome),
      "const" ∈ cols → loopAux signif r2th fit fuel cols = some o →
      "const" ∈ o.finalCols) :=
  ⟨fun pv cols b h => elim_const signif pv cols b h,
   fun fuel cols o h ho => loopAux_const signif r2th fit fuel cols o h ho⟩

/-- C5 witness: the constant survives a scan that assigns it p-value 1, and it
survives the full loop on the all-insignificant oracle. -/
theorem c5_const_never_removed_witness :
    "const" ∈ (elimOnce 0 [("const", (1 : ℚ)), ("f1", 1)] ["const", "f1"] true).1 ∧
    "const" ∈ (⟨["const"], false, "const", 2,
        [([("const", (1 : ℚ)), ("f1", 1)], 0), ([("const", (1 : ℚ))], 0)]⟩ : StepOutcome).finalCols :=
  ⟨(c5_const_never_removed 0 1 noisyOracle).1 [("const", 1), ("f1", 1)] ["const", "f1"] true
      (by decide),
   (c5_const_never_removed 0 1 noisyOracle).2 3 ["const", "f1"]
      ⟨["const"], false, "const", 2,
        [([("const", (1 : ℚ)), ("f1", 1)], 0), ([("const", (1 : ℚ))], 0)]⟩
      (by decide) (by decide)⟩

/-- C1: evaluating the code at a stock whose fit keeps two significant factors
shows that the recorded portfolio entry is only the stale loop variable, the
last factor name of the p-value series, not one entry per surviving factor:
f1 never appears among the recorded factor keys. -/
theorem c1_records_only_last_factor :
    regress_factors 0 0 ["f1", "f2"] [(PyKey.scalar "AAPL", sigOracle)] = [("f2", ["AAPL"])] ∧
    "f1" ∉ (regress_factors 0 0 ["f1", "f2"] [(PyKey.scalar "AAPL", sigOracle)]).map Prod.fst := by
  refine ⟨by decide, by decide⟩

end FinFactor
